import Mathlib

/-!
Shallow embedding of the retrieval core of the "Ask Andrew" newsletter RAG
route (the repository's single API source file): the chunker
(`splitIntoChunks`), cosine similarity, the ranker (`findRelevantChunks`),
cache-aware initialization (`initializeChunks`), the answer generator
(`generateAnswer`), and the POST handler's source-list construction.

JavaScript strings are modelled as `List Char`; numbers in embedding vectors
as exact reals (`ℝ`) or an abstract scalar type where the claim allows it.
-/

namespace AskAndrew

/-- The character class of the JavaScript regex `\s`, restricted to ASCII
whitespace (space, tab, newline, carriage return, vertical tab, form feed);
the corpus and all claims are ASCII. -/
def jsWhitespace (c : Char) : Bool :=
  c == ' ' || c == '\t' || c == '\n' || c == '\r' || c == '\x0b' || c == '\x0c'

/-- JavaScript `String.prototype.trim`: strip whitespace from both ends. -/
def trimJs (s : List Char) : List Char :=
  ((s.dropWhile jsWhitespace).reverse.dropWhile jsWhitespace).reverse

/-- The month-name alternatives of the date regex
`(January|February|...|December)\s+\d{1,2},\s+\d{4}`. -/
def monthNames : List (List Char) :=
  ["January".data, "February".data, "March".data, "April".data, "May".data,
   "June".data, "July".data, "August".data, "September".data, "October".data,
   "November".data, "December".data]

/-- Case-insensitive prefix test (the regex has the `i` flag). -/
def startsWithCI : List Char → List Char → Bool
  | [], _ => true
  | _ :: _, [] => false
  | p :: ps, c :: cs => p.toLower == c.toLower && startsWithCI ps cs

/-- Match one of the month names at the head of `s`; returns the number of
characters consumed. -/
def matchMonthAt (s : List Char) : Option Nat :=
  monthNames.findSome? (fun m => if startsWithCI m s then some m.length else none)

/-- Match `\d{1,2},` at the head of the input (greedy: two digits then a comma,
else one digit then a comma); returns the number of characters consumed. -/
def digitsComma : List Char → Option Nat
  | d1 :: d2 :: rest =>
    if d1.isDigit then
      if d2.isDigit then
        match rest with
        | ',' :: _ => some 3
        | _ => none
      else if d2 == ',' then some 2 else none
    else none
  | _ => none

/-- Match the full date pattern
`(January|...|December)\s+\d{1,2},\s+\d{4}` at the head of `s`; returns the
length of the matched text. -/
def matchDateAt (s : List Char) : Option Nat :=
  match matchMonthAt s with
  | none => none
  | some m =>
    let s1 := s.drop m
    let w1 := (s1.takeWhile jsWhitespace).length
    if w1 = 0 then none else
    let s2 := s1.drop w1
    match digitsComma s2 with
    | none => none
    | some dlen =>
      let s3 := s2.drop dlen
      let w2 := (s3.takeWhile jsWhitespace).length
      if w2 = 0 then none else
      let s4 := s3.drop w2
      match s4 with
      | a :: b :: c :: d :: _ =>
        if a.isDigit && b.isDigit && c.isDigit && d.isDigit then
          some (m + w1 + dlen + w2 + 4)
        else none
      | _ => none

/-- Auxiliary scan for `content.split(/(?=datePattern)/gi)`: accumulate the
current piece (reversed) and cut before every position where the date pattern
matches. A match at position 0 produces no empty leading piece, exactly as
JavaScript `split` with a zero-width match at the start. -/
def splitSegsAux : List Char → List Char → List (List Char)
  | [], acc => [acc.reverse]
  | c :: rest, acc =>
    if (matchDateAt rest).isSome then
      (c :: acc).reverse :: splitSegsAux rest []
    else
      splitSegsAux rest (c :: acc)

/-- `content.split(/(?=(January|...|December)\s+\d{1,2},\s+\d{4})/gi)`. -/
def splitSegs (content : List Char) : List (List Char) :=
  splitSegsAux content []

/-- Scanner mode for `split(/\n\s*\n/)`. `normal` is plain piece
accumulation. `run runAll confirmed pending` means the scanner is inside the
whitespace run following a newline that may start a separator: `runAll` holds
the run's characters so far (newest first, including the opening newline),
`confirmed` records whether a second newline has been seen (so the separator
matches, greedily extended to the last newline of the run, which is the
backtracking behaviour of the greedy `\s*` before the final `\n`), and
`pending` holds the whitespace seen after the last newline (it belongs to the
next piece when the separator is confirmed). -/
inductive ParaMode where
  | normal : ParaMode
  | run (runAll : List Char) (confirmed : Bool) (pending : List Char) : ParaMode

/-- Single-pass scan implementing `nl.split(/\n\s*\n/)`: `acc` is the current
piece (newest character first). -/
def splitParasAux : List Char → List Char → ParaMode → List (List Char)
  | [], acc, .normal => [acc.reverse]
  | [], acc, .run runAll confirmed pending =>
    if confirmed then [acc.reverse, pending.reverse] else [(runAll ++ acc).reverse]
  | c :: rest, acc, .normal =>
    if c == '\n' then splitParasAux rest acc (.run ['\n'] false [])
    else splitParasAux rest (c :: acc) .normal
  | c :: rest, acc, .run runAll confirmed pending =>
    if c == '\n' then splitParasAux rest acc (.run (c :: runAll) true [])
    else if jsWhitespace c then
      splitParasAux rest acc (.run (c :: runAll) confirmed (c :: pending))
    else
      if confirmed then acc.reverse :: splitParasAux rest (c :: pending) .normal
      else splitParasAux rest (c :: (runAll ++ acc)) .normal

/-- `nl.split(/\n\s*\n/)`. -/
def splitParas (s : List Char) : List (List Char) :=
  splitParasAux s [] .normal

/-- A chunk before embedding: `Omit<Chunk, 'embedding'>` in the source. -/
structure RawChunk where
  text : List Char
  title : List Char
  date : List Char
deriving DecidableEq, Repr

/-- The heading test of the chunking walk:
`para.length < 80 && !para.endsWith('.') && para.length > 5`. -/
def isHeading (para : List Char) : Bool :=
  decide (para.length < 80) && !(para.getLast? == some '.') &&
    decide (5 < para.length)

/-- The paragraph walk of `splitIntoChunks` within one newsletter segment:
accumulate paragraphs in a buffer under a current title, flushing on headings
(when the buffer holds more than 200 characters), on a buffer exceeding 800
characters, and at the end when more than 100 characters remain. -/
def walk (date : List Char) :
    List (List Char) → List Char → List Char → List RawChunk
  | [], buffer, currentTitle =>
    if 100 < buffer.length then [⟨trimJs buffer, currentTitle, date⟩] else []
  | p :: ps, buffer, currentTitle =>
    let para := trimJs p
    if isHeading para then
      if 200 < buffer.length then
        ⟨trimJs buffer, currentTitle, date⟩ :: walk date ps [] para
      else
        walk date ps buffer para
    else
      let buffer2 := buffer ++ para ++ ('\n' :: '\n' :: [])
      if 800 < buffer2.length then
        ⟨trimJs buffer2, currentTitle, date⟩ :: walk date ps [] currentTitle
      else
        walk date ps buffer2 currentTitle

/-- `nl.match(datePattern)` followed by taking match `[0]`: the text of the
leftmost match of the date pattern in `s`. -/
def firstDateMatch : List Char → Option (List Char)
  | [] => none
  | s@(_ :: rest) =>
    match matchDateAt s with
    | some n => some (s.take n)
    | none => firstDateMatch rest

/-- The chunker `splitIntoChunks` of the source: split the corpus into
newsletter segments at date-pattern positions, keep segments whose trimmed
length exceeds 200, and within each segment split into paragraphs (dropping
those of trimmed length at most 50) and run the accumulating walk. -/
def splitIntoChunks (content : List Char) : List RawChunk :=
  ((splitSegs content).filter (fun p => 200 < (trimJs p).length)).flatMap
    (fun nl =>
      let date := (firstDateMatch nl).getD ("Unknown".data)
      let paragraphs := (splitParas nl).filter (fun p => 50 < (trimJs p).length)
      walk date paragraphs [] date)

/-- The heading condition as the specification words it: short (< 80), does
not end in sentence-terminal punctuation (period, question mark, or
exclamation mark), and longer than 5 characters. Stated from the spec to be
compared with the source's `isHeading`. -/
def specHeadingCond (para : List Char) : Bool :=
  decide (para.length < 80) &&
    !(para.getLast? == some '.' || para.getLast? == some '?' ||
      para.getLast? == some '!') &&
    decide (5 < para.length)

/-- A fully populated chunk (`interface Chunk`), generic in the scalar type of
the embedding vector (`number[]` in the source). -/
structure Chunk (α : Type) where
  text : List Char
  title : List Char
  date : List Char
  embedding : List α
deriving DecidableEq, Repr

/-- `cosineSimilarity`: `dot(a,b) / (sqrt(normA) * sqrt(normB))`, where all
three accumulators run over the indices of `a`, exactly as the source's
`for (let i = 0; i < a.length; i++)` loop. -/
noncomputable def cosineSimilarity (a b : List ℝ) : ℝ :=
  ((List.range a.length).map (fun i => a.getD i 0 * b.getD i 0)).sum /
    (Real.sqrt (((List.range a.length).map (fun i => a.getD i 0 * a.getD i 0)).sum) *
      Real.sqrt (((List.range a.length).map (fun i => b.getD i 0 * b.getD i 0)).sum))

/-- The score-sort-slice core of `findRelevantChunks`:
map each chunk to `{chunk, score}`, stable-sort descending by score (the
comparator `(a, b) => b.score - a.score` under JavaScript's stable
`Array.prototype.sort`), take the first `topK`, and project the chunks
back out. -/
noncomputable def findRelevantChunks (queryEmb : List ℝ) (chunks : List (Chunk ℝ))
    (topK : ℕ) : List (Chunk ℝ) :=
  (((chunks.map (fun c => (c, cosineSimilarity queryEmb c.embedding))).insertionSort
      (fun a b => b.2 ≤ a.2)).take topK).map Prod.fst

/-- `getEmbedding`: truncate the text to 2000 characters and call the
embedding backend, which is modelled as a function `svc` returning `none`
when the call throws (missing credential or remote error). -/
def getEmbedding {α : Type} (svc : List Char → Option (List α))
    (text : List Char) : Option (List α) :=
  svc (text.take 2000)

/-- The cache-population loop of `initializeChunks` (cold-cache path): embed
each raw chunk in order, keeping the successes and skipping any chunk whose
embedding call fails (`try { ... push ... } catch { log }`). The backend is
indexed by the chunk position `i` so that per-call outcomes can differ. -/
def embedChunks {α : Type} (svc : ℕ → List Char → Option (List α))
    (raw : List RawChunk) : List (Chunk α) :=
  raw.enum.filterMap (fun p =>
    (getEmbedding (svc p.1) p.2.text).map (fun e =>
      ⟨p.2.text, p.2.title, p.2.date, e⟩))

/-- A cache entry as deserialized from `embeddings_cache.json`; the
`embedding` field may be missing (`none`). -/
structure CacheEntry (α : Type) where
  text : List Char
  title : List Char
  date : List Char
  embedding : Option (List α)
deriving DecidableEq

/-- The possible states of the on-disk cache file: absent
(`fs.existsSync` false), present but failing `JSON.parse` (the `catch`
branch), or parsed into a list of entries. -/
inductive CacheFile (α : Type) where
  | absent : CacheFile α
  | unparsable : CacheFile α
  | parsed (entries : List (CacheEntry α)) : CacheFile α

/-- The cache-loading step of `initializeChunks`: accept the cache only when
it parsed, is non-empty, and its first entry has an `embedding` field
(JavaScript truthiness of `cached[0].embedding`; any present array is
truthy). Every other state is treated as absent. -/
def loadCache {α : Type} : CacheFile α → Option (List (Chunk α))
  | .absent => none
  | .unparsable => none
  | .parsed [] => none
  | .parsed (e :: es) =>
    match e.embedding with
    | none => none
    | some _ =>
      some ((e :: es).map (fun x => ⟨x.text, x.title, x.date, x.embedding.getD []⟩))

/-- The observable outcome of `initializeChunks`: the process-wide `chunks`
list, and the contents written to the cache file (`none` when the cache was
accepted and nothing was written). -/
structure InitOutcome (α : Type) where
  chunks : List (Chunk α)
  savedCache : Option (List (Chunk α))
deriving DecidableEq

/-- `initializeChunks`: load the cache if acceptable; otherwise re-chunk the
corpus, embed every chunk best-effort, store the result as the process-wide
chunk list, and write it to the cache file. -/
def initializeChunks {α : Type} (cache : CacheFile α) (content : List Char)
    (svc : ℕ → List Char → Option (List α)) : InitOutcome α :=
  match loadCache cache with
  | some cs => ⟨cs, none⟩
  | none =>
    let cs := embedChunks svc (splitIntoChunks content)
    ⟨cs, some cs⟩

/-- Outcome of the primary (OpenRouter) path of `generateAnswer`: no API key
configured, the `fetch` threw, or a response whose extracted
`choices?.[0]?.message?.content` is `content` (`none` when the chain of
optional accesses produced no string). -/
inductive PrimaryOutcome where
  | noKey : PrimaryOutcome
  | httpError : PrimaryOutcome
  | responded (content : Option (List Char)) : PrimaryOutcome

/-- Outcome of the fallback (direct Gemini) path of `generateAnswer`: client
not configured (`genAI` null), the call threw, or returned text. -/
inductive FallbackOutcome where
  | notConfigured : FallbackOutcome
  | genError : FallbackOutcome
  | ok (text : List Char) : FallbackOutcome

/-- The fixed last-resort unavailability string of `generateAnswer`. -/
def unavailableMsg : List Char :=
  "I'm currently unavailable. Please check API configuration.".data

/-- `generateAnswer`: try the primary backend; a response whose content is a
non-empty string (JavaScript truthiness) is returned as-is; otherwise fall
through to the fallback backend; if that is unconfigured or throws, return
the fixed unavailability string. `query` and `context` feed the prompt and
do not influence which branch is taken. -/
def generateAnswer (query context : List Char) (primary : PrimaryOutcome)
    (fallback : FallbackOutcome) : List Char :=
  let afterPrimary :=
    match fallback with
    | .ok t => t
    | _ => unavailableMsg
  match primary with
  | .responded (some s) => if s = [] then afterPrimary else s
  | _ => afterPrimary

/-- The generator's "usable content" of a primary outcome, as the
specification words it: a response carrying a non-empty content string. -/
def usableContent : PrimaryOutcome → Option (List Char)
  | .responded (some s) => if s = [] then none else some s
  | _ => none

/-- The POST handler's source-list construction
`[...new Set(relevant.map(c => c.title))]`: iterate the titles, inserting
each into the set (which preserves insertion order) when not yet present. -/
def sourcesOf {α : Type} (relevant : List (Chunk α)) : List (List Char) :=
  (relevant.map (fun c => c.title)).foldl
    (fun acc t => if t ∈ acc then acc else acc ++ [t]) []

/-- Duplicate removal keeping each element's first appearance, as the
specification words the `sources` list; stated from the spec to be compared
with the source's set-spread construction `sourcesOf`. -/
def dedupFirst : List (List Char) → List (List Char)
  | [] => []
  | t :: ts => t :: dedupFirst (ts.filter (fun u => u ≠ t))
termination_by l => l.length
decreasing_by
  simp only [List.length_cons]
  exact Nat.lt_succ_of_le (List.length_filter_le _ _)

/-! Concrete inputs used to evaluate the embedded code at specific points. -/

/-- The corpus of end-to-end scenario 1: one newsletter dated
"March 3, 2021", a heading paragraph "On Divorce", then a 900-character
paragraph. -/
def corpusScenario1 : List Char :=
  "March 3, 2021\n\nOn Divorce\n\n".data ++ List.replicate 900 'a'

/-- A 52-character paragraph ending in a question mark: long enough to pass
the paragraph filter, short enough for the heading test. -/
def questionPara : List Char :=
  "Why did I choose to walk away from our biggest deal?".data

/-- A corpus whose second paragraph is `questionPara` followed by a
900-character paragraph. -/
def corpusQuestion : List Char :=
  "March 3, 2021\n\n".data ++ questionPara ++ "\n\n".data ++
    List.replicate 900 'a'

/-- A minimal corpus producing exactly one chunk: a dated newsletter with a
single 210-character paragraph. -/
def corpusSmall : List Char :=
  "January 1, 2020\n\n".data ++ List.replicate 210 'b'

/-- The single chunk that `splitIntoChunks` emits on `corpusSmall`. -/
def chunkSmall : RawChunk :=
  ⟨List.replicate 210 'b', "January 1, 2020".data, "January 1, 2020".data⟩

/-- A concrete embedded chunk used to exercise the ranker at a point. -/
def chunkR : Chunk ℝ :=
  ⟨['t'], ['t'], ['d'], [1]⟩

/-- Two concrete raw chunks used to exercise the population loop. -/
def rawPair : List RawChunk :=
  [⟨['x'], ['t'], ['d']⟩, ⟨['y'], ['u'], ['e']⟩]

/-- A concrete embedding backend over `ℚ` that fails on the first call and
succeeds afterwards. -/
def svcFailFirst : ℕ → List Char → Option (List ℚ) :=
  fun i _ => if i = 0 then none else some [1]

/-! Theorems. -/

set_option maxRecDepth 200000 in
set_option maxHeartbeats 4000000 in
/-- C1: on the scenario-1 corpus (date line "March 3, 2021", heading
paragraph "On Divorce", 900-character paragraph) the chunker emits exactly
one chunk, titled with the date "March 3, 2021" and not "On Divorce": the
10-character heading is discarded by the 50-character paragraph filter before
heading detection can run, so no chunk titled "On Divorce" exists,
contradicting the claim. -/
theorem splitIntoChunks_scenario1_eval :
    splitIntoChunks corpusScenario1 =
      [⟨List.replicate 900 'a', "March 3, 2021".data, "March 3, 2021".data⟩] ∧
    "On Divorce".data ∉ (splitIntoChunks corpusScenario1).map RawChunk.title := by
  have h : splitIntoChunks corpusScenario1 =
      [⟨List.replicate 900 'a', "March 3, 2021".data, "March 3, 2021".data⟩] := by
    decide
  refine ⟨h, ?_⟩
  rw [h]
  decide

set_option maxRecDepth 200000 in
set_option maxHeartbeats 4000000 in
/-- C2 counterexample: the 52-character paragraph `questionPara` ends in a
question mark, so the specification's heading condition rejects it, yet the
code's heading test accepts it and the chunking walk adopts it as the title
of the emitted chunk. -/
theorem isHeading_questionMark_counterexample :
    isHeading questionPara = true ∧ specHeadingCond questionPara = false ∧
    splitIntoChunks corpusQuestion =
      [⟨List.replicate 900 'a', questionPara, "March 3, 2021".data⟩] := by
  refine ⟨by decide, by decide, by decide⟩

/-- C2 amended: within a segment, a paragraph reaching step 3 of the walk is
classified as a heading if and only if its trimmed length is less than 80,
it does not end in a period (question marks and exclamation marks do not
disqualify it), and its trimmed length exceeds 5. -/
theorem isHeading_iff (para : List Char) :
    isHeading para = true ↔
      (para.length < 80 ∧ para.getLast? ≠ some '.' ∧ 5 < para.length) := by
  simp [isHeading, and_assoc]

/-- C3: cache loading never fails fatally: whether the cache file is absent,
fails to parse, parses to an empty list, or parses to a list whose first
entry lacks an embedding, `initializeChunks` proceeds to full regeneration
(producing a chunk list and writing it back to the cache) instead of
propagating an error. -/
theorem initializeChunks_cache_fail_soft {α : Type} (content : List Char)
    (svc : ℕ → List Char → Option (List α)) :
    (∃ cs, initializeChunks CacheFile.absent content svc = ⟨cs, some cs⟩) ∧
    (∃ cs, initializeChunks CacheFile.unparsable content svc = ⟨cs, some cs⟩) ∧
    (∃ cs, initializeChunks (CacheFile.parsed []) content svc = ⟨cs, some cs⟩) ∧
    ∀ (t ti d : List Char) (es : List (CacheEntry α)),
      ∃ cs, initializeChunks (CacheFile.parsed (⟨t, ti, d, none⟩ :: es))
        content svc = ⟨cs, some cs⟩ :=
  ⟨⟨_, rfl⟩, ⟨_, rfl⟩, ⟨_, rfl⟩, fun _ _ _ _ => ⟨_, rfl⟩⟩

/-- C4: `generateAnswer` never raises: when the primary backend yields no
usable content (no key, an HTTP error, a contentless response, or an empty
content string), the fallback backend decides the result — its text on
success, and exactly the fixed unavailability string when it is unconfigured
or fails; when the primary yields usable content, that content is returned
for every fallback state. -/
theorem generateAnswer_fallback_spec (query context : List Char)
    (p : PrimaryOutcome) :
    (usableContent p = none →
      (generateAnswer query context p FallbackOutcome.notConfigured
          = unavailableMsg ∧
        generateAnswer query context p FallbackOutcome.genError
          = unavailableMsg ∧
        ∀ t, generateAnswer query context p (FallbackOutcome.ok t) = t)) ∧
    (∀ s, usableContent p = some s →
      ∀ f, generateAnswer query context p f = s) := by
  constructor
  · intro h
    cases p with
    | noKey => exact ⟨rfl, rfl, fun _ => rfl⟩
    | httpError => exact ⟨rfl, rfl, fun _ => rfl⟩
    | responded content =>
      cases content with
      | none => exact ⟨rfl, rfl, fun _ => rfl⟩
      | some s =>
        have hs : s = [] := by
          by_contra hne
          simp [usableContent, hne] at h
        subst hs
        exact ⟨by simp [generateAnswer], by simp [generateAnswer],
          fun _ => by simp [generateAnswer]⟩
  · intro s hs f
    cases p with
    | noKey => simp [usableContent] at hs
    | httpError => simp [usableContent] at hs
    | responded content =>
      cases content with
      | none => simp [usableContent] at hs
      | some s' =>
        by_cases h' : s' = []
        · subst h'; simp [usableContent] at hs
        · simp only [usableContent, if_neg h', Option.some.injEq] at hs
          subst hs
          simp [generateAnswer, h']

/-- Witness for C4 at a concrete point: with no primary key and no fallback
configuration, the response is exactly the fixed unavailability string. -/
theorem generateAnswer_fallback_witness :
    usableContent PrimaryOutcome.noKey = none ∧
    generateAnswer (['q']) (['c']) PrimaryOutcome.noKey
      FallbackOutcome.notConfigured = unavailableMsg :=
  ⟨rfl, ((generateAnswer_fallback_spec (['q']) (['c'])
    PrimaryOutcome.noKey).1 rfl).1⟩

/-- C7: cosine similarity is symmetric for vectors of equal dimensionality,
under exact real arithmetic. -/
theorem cosineSimilarity_symm (a b : List ℝ) (h : a.length = b.length) :
    cosineSimilarity a b = cosineSimilarity b a := by
  unfold cosineSimilarity
  have hd : (List.range a.length).map (fun i => a.getD i 0 * b.getD i 0)
      = (List.range b.length).map (fun i => b.getD i 0 * a.getD i 0) := by
    rw [h]
    exact List.map_congr_left (fun i _ => mul_comm _ _)
  rw [hd, h]
  ring

/-- Witness for C7 at a concrete point: the two-dimensional vectors
`[1, 2]` and `[3, 4]`. -/
theorem cosineSimilarity_symm_witness :
    ([(1 : ℝ), 2].length = [(3 : ℝ), 4].length) ∧
    cosineSimilarity [(1 : ℝ), 2] [(3 : ℝ), 4]
      = cosineSimilarity [(3 : ℝ), 4] [(1 : ℝ), 2] :=
  ⟨rfl, cosineSimilarity_symm _ _ rfl⟩

theorem foldl_set_insert_eq_dedupFirst (l acc : List (List Char)) :
    l.foldl (fun acc t => if t ∈ acc then acc else acc ++ [t]) acc
      = acc ++ dedupFirst (l.filter (fun t => t ∉ acc)) := by
  induction l generalizing acc with
  | nil => simp [dedupFirst]
  | cons t ts ih =>
    rw [List.foldl_cons]
    by_cases ht : t ∈ acc
    · rw [if_pos ht, ih]
      have h1 : (t :: ts).filter (fun x => decide (x ∉ acc))
          = ts.filter (fun x => decide (x ∉ acc)) := by
        rw [List.filter_cons]
        simp [ht]
      rw [h1]
    · rw [if_neg ht, ih]
      have h1 : (t :: ts).filter (fun x => decide (x ∉ acc))
          = t :: ts.filter (fun x => decide (x ∉ acc)) := by
        rw [List.filter_cons]
        simp [ht]
      rw [h1]
      simp only [dedupFirst]
      rw [List.filter_filter]
      have h2 : ts.filter (fun x => decide (x ∉ acc ++ [t]))
          = ts.filter (fun a => decide (a ≠ t) && decide (a ∉ acc)) := by
        apply List.filter_congr
        intro x _
        by_cases hx1 : x = t <;> by_cases hx2 : x ∈ acc <;>
          simp [hx1, hx2]
      rw [h2, List.append_assoc, List.singleton_append]

theorem matchDateAt_pos {s : List Char} {n : ℕ} (h : matchDateAt s = some n) :
    0 < n := by
  unfold matchDateAt at h
  split at h
  · exact absurd h (by simp)
  · simp only [] at h
    split at h
    · exact absurd h (by simp)
    · split at h
      · exact absurd h (by simp)
      · split at h
        · exact absurd h (by simp)
        · split at h
          · split at h
            · cases h
              omega
            · exact absurd h (by simp)
          · exact absurd h (by simp)

theorem firstDateMatch_ne_nil :
    ∀ {s m : List Char}, firstDateMatch s = some m → m ≠ [] := by
  intro s
  induction s with
  | nil => intro m h; simp [firstDateMatch] at h
  | cons c rest ih =>
    intro m h
    rw [firstDateMatch] at h
    cases hm : matchDateAt (c :: rest) with
    | some n =>
      rw [hm] at h
      have hn := matchDateAt_pos hm
      cases n with
      | zero => omega
      | succ k =>
        simp only [List.take_succ_cons, Option.some.injEq] at h
        rw [← h]
        simp
    | none =>
      rw [hm] at h
      exact ih h

theorem walk_title_inv (date : List Char) (ps : List (List Char))
    (buffer currentTitle : List Char)
    (hps : ∀ p ∈ ps, 50 < (trimJs p).length)
    (hct : currentTitle = date ∨
      (50 < currentTitle.length ∧ currentTitle.length < 80)) :
    ∀ c ∈ walk date ps buffer currentTitle,
      c.date = date ∧
      (c.title = date ∨ (50 < c.title.length ∧ c.title.length < 80)) := by
  induction ps generalizing buffer currentTitle with
  | nil =>
    intro c hc
    rw [walk] at hc
    split at hc
    · rcases List.mem_singleton.mp hc with rfl
      exact ⟨rfl, hct⟩
    · simp at hc
  | cons p ps ih =>
    intro c hc
    rw [walk] at hc
    simp only [] at hc
    have hps' : ∀ q ∈ ps, 50 < (trimJs q).length :=
      fun q hq => hps q (List.mem_cons_of_mem _ hq)
    have hp50 : 50 < (trimJs p).length := hps p (List.mem_cons_self _ _)
    by_cases hh : isHeading (trimJs p) = true
    · rw [if_pos hh] at hc
      have hp80 : (trimJs p).length < 80 := by
        simp only [isHeading, Bool.and_eq_true, decide_eq_true_eq] at hh
        exact hh.1.1
      have hnew : trimJs p = date ∨
          (50 < (trimJs p).length ∧ (trimJs p).length < 80) :=
        Or.inr ⟨hp50, hp80⟩
      split at hc
      · rcases List.mem_cons.mp hc with rfl | hc'
        · exact ⟨rfl, hct⟩
        · exact ih [] (trimJs p) hps' hnew c hc'
      · exact ih buffer (trimJs p) hps' hnew c hc
    · rw [if_neg hh] at hc
      split at hc
      · rcases List.mem_cons.mp hc with rfl | hc'
        · exact ⟨rfl, hct⟩
        · exact ih [] currentTitle hps' hct c hc'
      · exact ih _ currentTitle hps' hct c hc

/-- C10: every chunk emitted by the chunker has a non-empty title, and that
title is either the segment's date field (the extracted date or the sentinel
"Unknown") or a heading paragraph whose trimmed length lies strictly between
50 and 80 characters, because the paragraph filter discards trimmed
paragraphs of 50 characters or fewer before heading detection runs. -/
theorem splitIntoChunks_titles (content : List Char) :
    ∀ c ∈ splitIntoChunks content,
      c.title ≠ [] ∧
      (c.title = c.date ∨ (50 < c.title.length ∧ c.title.length < 80)) := by
  intro c hc
  unfold splitIntoChunks at hc
  rw [List.mem_flatMap] at hc
  obtain ⟨nl, hnl, hcw⟩ := hc
  simp only [] at hcw
  have hps : ∀ p ∈ (splitParas nl).filter (fun p => 50 < (trimJs p).length),
      50 < (trimJs p).length := by
    intro p hp
    have h2 := (List.mem_filter.mp hp).2
    simpa using h2
  have hmain := walk_title_inv _ _ [] _ hps (Or.inl rfl) c hcw
  obtain ⟨hdate, htitle⟩ := hmain
  have hdne : ((firstDateMatch nl).getD ("Unknown".data)) ≠ [] := by
    cases hm : firstDateMatch nl with
    | some m => simpa using firstDateMatch_ne_nil hm
    | none => simp
  constructor
  · rcases htitle with h | h
    · rw [h]; exact hdne
    · intro hnil
      rw [hnil] at h
      simp at h
  · rcases htitle with h | h
    · left
      rw [h, hdate]
    · right
      exact h

set_option maxRecDepth 200000 in
set_option maxHeartbeats 1000000 in
/-- Witness for C10 at a concrete point: the single chunk emitted on
`corpusSmall`. -/
theorem splitIntoChunks_titles_witness :
    chunkSmall ∈ splitIntoChunks corpusSmall ∧
    (chunkSmall.title ≠ [] ∧
      (chunkSmall.title = chunkSmall.date ∨
        (50 < chunkSmall.title.length ∧ chunkSmall.title.length < 80))) :=
  ⟨by decide, splitIntoChunks_titles corpusSmall chunkSmall (by decide)⟩

/-- C8: the orchestrator's `sources` construction
`[...new Set(relevant.map(c => c.title))]` equals the ranked chunks' titles
with duplicates removed, keeping each title's first appearance. -/
theorem sourcesOf_eq_dedupFirst {α : Type} (relevant : List (Chunk α)) :
    sourcesOf relevant = dedupFirst (relevant.map (fun c => c.title)) := by
  have h := foldl_set_insert_eq_dedupFirst (relevant.map (fun c => c.title)) []
  simpa [sourcesOf] using h

theorem orderedInsert_pairwise_lex {β : Type} (T : β → β → Prop)
    (x : β × ℝ) (l : List (β × ℝ))
    (hl : l.Pairwise (fun a b => b.2 < a.2 ∨ (a.2 = b.2 ∧ T a.1 b.1)))
    (hx : ∀ y ∈ l, T x.1 y.1) :
    (l.orderedInsert (fun a b => b.2 ≤ a.2) x).Pairwise
      (fun a b => b.2 < a.2 ∨ (a.2 = b.2 ∧ T a.1 b.1)) := by
  induction l with
  | nil => simp
  | cons y ys ih =>
    rw [List.orderedInsert]
    split_ifs with hxy
    · refine List.Pairwise.cons ?_ hl
      intro z hz
      rcases List.mem_cons.mp hz with rfl | hz'
      · rcases lt_or_eq_of_le hxy with hlt | heq
        · exact Or.inl hlt
        · exact Or.inr ⟨heq.symm, hx _ (List.mem_cons_self _ _)⟩
      · have hyz := List.rel_of_pairwise_cons hl hz'
        have hz2 : z.2 ≤ y.2 := by
          rcases hyz with h1 | h1
          · exact le_of_lt h1
          · exact le_of_eq h1.1.symm
        rcases lt_or_eq_of_le (le_trans hz2 hxy) with hlt | heq
        · exact Or.inl hlt
        · exact Or.inr ⟨heq.symm, hx _ (List.mem_cons_of_mem _ hz')⟩
    · have hlt := not_le.mp hxy
      refine List.Pairwise.cons ?_ (ih (List.pairwise_cons.mp hl).2
        (fun z hz => hx _ (List.mem_cons_of_mem _ hz)))
      intro z hz
      rcases (List.mem_orderedInsert _).mp hz with rfl | hz'
      · exact Or.inl hlt
      · exact (List.pairwise_cons.mp hl).1 z hz'

theorem insertionSort_pairwise_lex {β : Type} (T : β → β → Prop)
    (l : List (β × ℝ)) (hl : l.Pairwise (fun a b => T a.1 b.1)) :
    (l.insertionSort (fun a b => b.2 ≤ a.2)).Pairwise
      (fun a b => b.2 < a.2 ∨ (a.2 = b.2 ∧ T a.1 b.1)) := by
  induction l with
  | nil => simp
  | cons x xs ih =>
    rw [List.insertionSort]
    apply orderedInsert_pairwise_lex
    · exact ih (List.pairwise_cons.mp hl).2
    · intro y hy
      exact (List.pairwise_cons.mp hl).1 y ((List.mem_insertionSort _).mp hy)

theorem pairwise_fst_lt_enumFrom {γ : Type} :
    ∀ (n : ℕ) (l : List γ), (List.enumFrom n l).Pairwise (fun a b => a.1 < b.1) := by
  intro n l
  induction l generalizing n with
  | nil => simp
  | cons x xs ih =>
    rw [List.enumFrom_cons]
    refine List.Pairwise.cons ?_ (ih (n + 1))
    intro y hy
    obtain ⟨i, a⟩ := y
    have h := List.mem_enumFrom hy
    exact lt_of_lt_of_le (Nat.lt_succ_self n) h.1

theorem rank_pipeline_spec {γ : Type} (g : γ → ℝ) (cs : List γ) (k : ℕ) :
    ((((cs.map (fun c => (c, g c))).insertionSort
        (fun a b => b.2 ≤ a.2)).take k).map Prod.fst).length = min k cs.length ∧
    ∃ ps : List (ℕ × γ),
      (((cs.map (fun c => (c, g c))).insertionSort
          (fun a b => b.2 ≤ a.2)).take k).map Prod.fst = ps.map Prod.snd ∧
      (∀ p ∈ ps, p ∈ cs.enum) ∧
      ps.Pairwise (fun a b => g b.2 < g a.2 ∨ (g a.2 = g b.2 ∧ a.1 < b.1)) := by
  classical
  have hmap : (cs.enum.map (fun p => (p, g p.2))).map
      (fun p => (p.1.2, p.2)) = cs.map (fun c => (c, g c)) := by
    rw [List.map_map]
    conv_rhs => rw [← List.enum_map_snd cs, List.map_map]
    rfl
  have hsort := List.map_insertionSort
    (fun a b : (ℕ × γ) × ℝ => b.2 ≤ a.2)
    (fun a b : γ × ℝ => b.2 ≤ a.2)
    (fun p => (p.1.2, p.2)) (cs.enum.map (fun p => (p, g p.2)))
    (fun a _ b _ => Iff.rfl)
  constructor
  · simp [List.length_take, List.length_insertionSort]
  · refine ⟨(((cs.enum.map (fun p => (p, g p.2))).insertionSort
      (fun a b => b.2 ≤ a.2)).take k).map Prod.fst, ?_, ?_, ?_⟩
    · rw [← hmap, ← hsort, ← List.map_take, List.map_map, List.map_map]
      rfl
    · intro p hp
      obtain ⟨q, hq, rfl⟩ := List.mem_map.mp hp
      have hq2 : q ∈ cs.enum.map (fun p => (p, g p.2)) :=
        (List.mem_insertionSort _).mp ((List.take_sublist _ _).subset hq)
      obtain ⟨e, he, rfl⟩ := List.mem_map.mp hq2
      exact he
    · have hpwI : (cs.enum.map (fun p => (p, g p.2))).Pairwise
          (fun a b => a.1.1 < b.1.1) := by
        rw [List.pairwise_map]
        exact pairwise_fst_lt_enumFrom 0 cs
      have hsorted := insertionSort_pairwise_lex
        (fun a b : ℕ × γ => a.1 < b.1) _ hpwI
      have htake := List.Pairwise.sublist (List.take_sublist k _) hsorted
      have hscore : ∀ x ∈ ((cs.enum.map (fun p => (p, g p.2))).insertionSort
          (fun a b => b.2 ≤ a.2)).take k, x.2 = g x.1.2 := by
        intro x hx
        have hx2 : x ∈ cs.enum.map (fun p => (p, g p.2)) :=
          (List.mem_insertionSort _).mp ((List.take_sublist _ _).subset hx)
        obtain ⟨e, _, rfl⟩ := List.mem_map.mp hx2
        rfl
      rw [List.pairwise_map]
      refine List.Pairwise.imp_of_mem ?_ htake
      intro a b ha hb hQ
      rw [hscore a ha, hscore b hb] at hQ
      exact hQ

/-- C5: the ranker returns exactly `min topK n` chunks (all of them when
fewer than `topK` exist), and the output is a selection of indexed input
chunks ordered by strictly decreasing score with ties broken by increasing
original position (stable descending sort by cosine similarity). -/
theorem findRelevantChunks_stable_spec (queryEmb : List ℝ)
    (chunks : List (Chunk ℝ)) (topK : ℕ) :
    (findRelevantChunks queryEmb chunks topK).length = min topK chunks.length ∧
    ∃ ps : List (ℕ × Chunk ℝ),
      findRelevantChunks queryEmb chunks topK = ps.map Prod.snd ∧
      (∀ p ∈ ps, p ∈ chunks.enum) ∧
      ps.Pairwise (fun a b =>
        cosineSimilarity queryEmb b.2.embedding
            < cosineSimilarity queryEmb a.2.embedding ∨
          (cosineSimilarity queryEmb a.2.embedding
              = cosineSimilarity queryEmb b.2.embedding ∧ a.1 < b.1)) :=
  rank_pipeline_spec (fun c : Chunk ℝ => cosineSimilarity queryEmb c.embedding)
    chunks topK

/-- C9: the ranking step fabricates nothing and modifies nothing: every
chunk it returns is an element of the input chunk list, with text, title,
date and embedding untouched (the sort happens on a freshly mapped array of
score wrappers, never on the input). -/
theorem findRelevantChunks_no_mutation (queryEmb : List ℝ)
    (chunks : List (Chunk ℝ)) (topK : ℕ) :
    ∀ c ∈ findRelevantChunks queryEmb chunks topK, c ∈ chunks := by
  intro c hc
  unfold findRelevantChunks at hc
  obtain ⟨q, hq, rfl⟩ := List.mem_map.mp hc
  have hq2 : q ∈ chunks.map
      (fun c => (c, cosineSimilarity queryEmb c.embedding)) :=
    (List.mem_insertionSort _).mp ((List.take_sublist _ _).subset hq)
  obtain ⟨c', hc', rfl⟩ := List.mem_map.mp hq2
  exact hc'

/-- Witness for C9 at a concrete point: a singleton chunk list. -/
theorem findRelevantChunks_no_mutation_witness :
    chunkR ∈ findRelevantChunks [(1 : ℝ)] [chunkR] 1 ∧ chunkR ∈ [chunkR] := by
  have hmem : chunkR ∈ findRelevantChunks [(1 : ℝ)] [chunkR] 1 := by
    change chunkR ∈ [chunkR]
    exact List.mem_singleton_self _
  exact ⟨hmem, findRelevantChunks_no_mutation [(1 : ℝ)] [chunkR] 1 chunkR hmem⟩

theorem filterMap_eq_filterMap_filter_isSome {γ δ : Type} (F : γ → Option δ)
    (l : List γ) :
    l.filterMap F = (l.filter (fun x => (F x).isSome)).filterMap F := by
  induction l with
  | nil => rfl
  | cons x xs ih =>
    cases hx : F x with
    | none => simp [List.filterMap_cons, List.filter_cons, hx, ih]
    | some b => simp [List.filterMap_cons, List.filter_cons, hx, ih]

/-- C6: during cold-cache population, a single failing chunk embedding is
skipped without aborting: if exactly the `j`-th embedding call fails (and at
least two chunks exist), the populated list is non-empty and equals the
embedding of every other chunk in original order. -/
theorem embedChunks_skip_single_failure {α : Type}
    (svc : ℕ → List Char → Option (List α)) (raw : List RawChunk) (j : ℕ)
    (hlen : 2 ≤ raw.length) (hj : j < raw.length)
    (hfail : ∀ p ∈ raw.enum,
      ((getEmbedding (svc p.1) p.2.text).isSome ↔ p.1 ≠ j)) :
    embedChunks svc raw ≠ [] ∧
    embedChunks svc raw
      = (raw.enum.filter (fun p => p.1 ≠ j)).filterMap (fun p =>
          (getEmbedding (svc p.1) p.2.text).map (fun e =>
            ⟨p.2.text, p.2.title, p.2.date, e⟩)) := by
  have heq : embedChunks svc raw
      = (raw.enum.filter (fun p => p.1 ≠ j)).filterMap (fun p =>
          (getEmbedding (svc p.1) p.2.text).map (fun e =>
            ⟨p.2.text, p.2.title, p.2.date, e⟩)) := by
    rw [embedChunks, filterMap_eq_filterMap_filter_isSome]
    congr 1
    apply List.filter_congr
    intro p hp
    have hiff := hfail p hp
    cases hg : getEmbedding (svc p.1) p.2.text with
    | none =>
      have hpj : p.1 = j := by
        by_contra hne
        have hs := hiff.mpr hne
        rw [hg] at hs
        simp at hs
      simp [hg, hpj]
    | some v =>
      have hne : p.1 ≠ j := hiff.mp (by rw [hg]; rfl)
      simp [hg, hne]
  refine ⟨?_, heq⟩
  have key : ∀ i0, i0 < raw.length → i0 ≠ j → embedChunks svc raw ≠ [] := by
    intro i0 h1 h2
    have henum : (i0, raw.get ⟨i0, h1⟩) ∈ raw.enum := by
      rw [List.mem_enum_iff_getElem?]
      simp [List.getElem?_eq_getElem h1]
    have hsome : (getEmbedding (svc i0) (raw.get ⟨i0, h1⟩).text).isSome :=
      (hfail _ henum).mpr h2
    obtain ⟨v, hv⟩ := Option.isSome_iff_exists.mp hsome
    have hmem : (⟨(raw.get ⟨i0, h1⟩).text, (raw.get ⟨i0, h1⟩).title,
        (raw.get ⟨i0, h1⟩).date, v⟩ : Chunk α) ∈ embedChunks svc raw := by
      rw [embedChunks]
      refine List.mem_filterMap.mpr ⟨(i0, raw.get ⟨i0, h1⟩), henum, ?_⟩
      rw [hv]
      rfl
    exact List.ne_nil_of_mem hmem
  by_cases h0 : j = 0
  · exact key 1 (by omega) (by omega)
  · exact key 0 (by omega) (fun h => h0 h.symm)

/-- Witness for C6 at a concrete point: two raw chunks, a backend failing
exactly on the first call. -/
theorem embedChunks_skip_single_failure_witness :
    (2 ≤ rawPair.length) ∧ (0 < rawPair.length) ∧
    (∀ p ∈ rawPair.enum,
      ((getEmbedding (svcFailFirst p.1) p.2.text).isSome ↔ p.1 ≠ 0)) ∧
    (embedChunks svcFailFirst rawPair ≠ [] ∧
      embedChunks svcFailFirst rawPair
        = (rawPair.enum.filter (fun p => p.1 ≠ 0)).filterMap (fun p =>
            (getEmbedding (svcFailFirst p.1) p.2.text).map (fun e =>
              ⟨p.2.text, p.2.title, p.2.date, e⟩))) :=
  ⟨by decide, by decide, by decide,
    embedChunks_skip_single_failure svcFailFirst rawPair 0
      (by decide) (by decide) (by decide)⟩

end AskAndrew
